import Mathlib

/-!
Verification of the PrefixSpan sequential-pattern-mining engine
(`backend/mining.py`, class `PrefixSpan`) against its specification.

The Python code is shallowly embedded below.  Item tokens are `String`s
compared for equality exactly as in Python; Python string ordering
(lexicographic by code point, used by `sorted`) is embedded as the
lexicographic order on the underlying character lists.  Python's stable
`list.sort` / `sorted` is embedded as a stable insertion sort
(`stableSortBy`): any two stable sorts by the same total preorder agree
extensionally, so this is faithful to timsort's observable behaviour.
-/

namespace PrefixSpanVerif

/-- Python string comparison `a <= b`: lexicographic by code point.
Embedded via the lexicographic order on the character lists. -/
def pyStrLe (a b : String) : Bool := decide (a.data ≤ b.data)

/-! ### A stable sort

`stableSortBy le` is insertion sort: each element is inserted in front of
the first already-placed element `y` with `le x y`.  For a total preorder
`le` this is exactly the behaviour of Python's stable sort: the output is
sorted, and elements with equivalent keys keep their original order. -/

/-- Insert `x` in front of the first element `y` of `l` with `le x y`. -/
def insertStable (le : α → α → Bool) (x : α) : List α → List α
  | [] => [x]
  | y :: ys => if le x y then x :: y :: ys else y :: insertStable le x ys

/-- Stable insertion sort (embedding of Python's `sorted` / `list.sort`). -/
def stableSortBy (le : α → α → Bool) : List α → List α
  | [] => []
  | x :: xs => insertStable le x (stableSortBy le xs)

/-! ### Embedding of `PrefixSpan` (`backend/mining.py`)

A sequence is a `List String`; the database is a `List (List String)`.
The recursion of `_mine_recursive` is not structural, so the embedding
carries an explicit fuel parameter; the top-level entry point supplies
fuel larger than any reachable recursion depth (the depth is bounded by
the longest input sequence plus one, because a candidate extension needs
a nonempty projected row).  All the theorems below about the recursion
are invariants that hold for every fuel value. -/

/-- The greedy left-to-right consumption loop of `_pattern_in_sequence`
(mining.py lines 223-231): walk the sequence once, consuming the next
unconsumed pattern token on every equal row token; `true` iff the whole
pattern is consumed.  First argument is the sequence, second the
still-unconsumed pattern. -/
def matchGreedy : List String → List String → Bool
  | _, [] => true
  | [], _ :: _ => false
  | t :: ss, p :: ps => if t = p then matchGreedy ss ps else matchGreedy ss (p :: ps)

/-- `_pattern_in_sequence(pattern, sequence)` (mining.py lines 212-232).
The loop returns `True` only from inside the consumption branch, so an
empty pattern yields `False`. -/
def patternInSequence (pat s : List String) : Bool :=
  !pat.isEmpty && matchGreedy s pat

/-- `_calculate_support(pattern)` (mining.py lines 196-210): the number of
sequences of the original database for which `_pattern_in_sequence` holds. -/
def calcSupport (db : List (List String)) (pat : List String) : Nat :=
  db.countP (fun s => patternInSequence pat s)

/-- `_find_suffix(sequence, pattern)` (mining.py lines 157-194).  The code
tries each start index `i` in order; from a given start the inner loop
breaks on the first mismatching token, so a start succeeds exactly when
the pattern is a contiguous segment of the sequence beginning at `i`; the
result is the part of the sequence strictly after that first contiguous
occurrence (`None` when there is none). -/
def findSuffix : List String → List String → Option (List String)
  | [], pat => if pat.isEmpty then some [] else none
  | a :: t, pat =>
    if pat.isPrefixOf (a :: t) then some ((a :: t).drop pat.length)
    else findSuffix t pat

/-- `_build_projected_database(pattern)` (mining.py lines 138-155): it
always scans `self.sequences`, the original database, which is the first
argument here.  The Python guard `if suffix:` keeps a row only when
`_find_suffix` returned a *nonempty* list: both `None` and the empty
suffix `[]` are falsy and are dropped. -/
def buildProjected (db : List (List String)) (pat : List String) :
    List (List String) :=
  db.filterMap (fun s =>
    match findSuffix s pat with
    | some t => if t.isEmpty then none else some t
    | none => none)

/-- First-occurrence deduplication, parameterised by the already-seen
items.  Models the iteration order of a Python dict built by insertion
(and of `set(sequence)`, whose hash-driven order is not observable in any
claim below except through the dict insertion order it induces; the
embedding fixes it to first-occurrence order). -/
def firstDedupAux (seen : List String) : List String → List String
  | [] => []
  | x :: xs =>
    if x ∈ seen then firstDedupAux seen xs
    else x :: firstDedupAux (x :: seen) xs

/-- Key order of the `item_counts` dict (mining.py lines 88-93 and
118-122): rows are scanned in order and each row contributes its distinct
items; a key is inserted the first time it is seen. -/
def itemKeys (rows : List (List String)) : List String :=
  firstDedupAux [] (rows.flatMap (fun r => firstDedupAux [] r))

/-- The count stored for an item: the number of rows whose distinct-item
set contains it (each row contributes at most once). -/
def itemCount (rows : List (List String)) (x : String) : Nat :=
  rows.countP (fun r => decide (x ∈ r))

/-- The keys of `item_counts` whose count passes the threshold, in dict
insertion order — exactly the candidates visited by the loop of
`_mine_recursive` (mining.py lines 125-126), which applies no sort. -/
def frequentItemsInRows (rows : List (List String)) (msc : Nat) : List String :=
  (itemKeys rows).filter (fun x => decide (msc ≤ itemCount rows x))

/-- `_find_frequent_items()` (mining.py lines 81-101): same counts over
the full database, then `sorted(...)` — ascending Python string order. -/
def findFrequentItems (db : List (List String)) (msc : Nat) : List String :=
  stableSortBy pyStrLe (frequentItemsInRows db msc)

/-- One record of `self.frequent_patterns` as built by `_add_pattern`
(mining.py lines 234-249).  The code also stores
`support_percent = round(support / total_sequences * 100, 2)`, a Python
float computation; floating point is outside this embedding and no claim
mentions that field, so it is not carried here. -/
structure PatternRec where
  sequence : List String
  support : Nat
  length : Nat
deriving DecidableEq, Repr

/-- The record appended by `_add_pattern(pattern, support)` where
`support = _calculate_support(pattern)`. -/
def mkRec (db : List (List String)) (pat : List String) : PatternRec :=
  { sequence := pat, support := calcSupport db pat, length := pat.length }

/-- Python truthiness guard of mining.py line 114:
`if self.max_pattern_length and current_length > self.max_pattern_length`
(`None` and `0` are falsy). -/
def stopGuard (cap : Option Nat) (curLen : Nat) : Bool :=
  match cap with
  | none => false
  | some c => decide (c ≠ 0) && decide (curLen > c)

/-- Guard of mining.py line 134 (and line 68 with `current_length = 1`):
`self.max_pattern_length is None or current_length < self.max_pattern_length`. -/
def goDeeper (cap : Option Nat) (curLen : Nat) : Bool :=
  match cap with
  | none => true
  | some c => decide (curLen < c)

/-- `_mine_recursive(prefix, projected_db, current_length)`
(mining.py lines 103-136), returning the list of records it appends, in
order.  Note that the recursive call rebuilds the projected database with
`_build_projected_database(new_pattern)`, i.e. from the original `db`,
not from `projDb`. -/
def mineRec (db : List (List String)) (msc : Nat) (cap : Option Nat) :
    Nat → List String → List (List String) → Nat → List PatternRec
  | 0, _, _, _ => []
  | fuel + 1, pfx, projDb, curLen =>
    if stopGuard cap curLen then []
    else
      (frequentItemsInRows projDb msc).flatMap (fun item =>
        mkRec db (pfx ++ [item]) ::
          (if goDeeper cap curLen then
            mineRec db msc cap fuel (pfx ++ [item])
              (buildProjected db (pfx ++ [item])) (curLen + 1)
          else []))

/-- Fuel that dominates every reachable recursion depth: one more than
the length of the longest sequence, plus one for the root call. -/
def dbFuel (db : List (List String)) : Nat :=
  (db.map List.length).foldr max 0 + 2

/-- The body of `mine_patterns()` before the final sort (mining.py lines
56-70): for each frequent single item in sorted order, append the
1-pattern and then everything its recursive subtree appends. -/
def discoveredPatterns (db : List (List String)) (msc : Nat)
    (cap : Option Nat) : List PatternRec :=
  (findFrequentItems db msc).flatMap (fun item =>
    mkRec db [item] ::
      (if goDeeper cap 1 then
        mineRec db msc cap (dbFuel db) [item] (buildProjected db [item]) 2
      else []))

/-- The sort key comparison of mining.py line 77:
`key=lambda x: (-x['support'], -x['length'])`; `lePat a b` says the key of
`a` is at most the key of `b`. -/
def lePat (a b : PatternRec) : Bool :=
  decide (b.support < a.support) ||
    (decide (a.support = b.support) && decide (b.length ≤ a.length))

/-- `mine_patterns()` (mining.py lines 46-79) with the support threshold
`msc` (`self.min_support_count`) taken as a parameter: the discovered
records followed by the single stable in-place sort. -/
def minePatterns (db : List (List String)) (msc : Nat) (cap : Option Nat) :
    List PatternRec :=
  stableSortBy lePat (discoveredPatterns db msc cap)

/-- `self.min_support_count = max(1, int(min_support * len(sequences)))`
(mining.py line 39); for a non-negative fraction Python `int` truncation
is the floor.  `min_support` is embedded as an exact rational. -/
def minSupportCount (ms : ℚ) (n : Nat) : Nat :=
  max 1 (Int.toNat ⌊ms * n⌋)

/-- The full pipeline: `PrefixSpan(sequences, min_support,
max_pattern_length).mine_patterns()`. -/
def minePatternsQ (db : List (List String)) (ms : ℚ) (cap : Option Nat) :
    List PatternRec :=
  minePatterns db (minSupportCount ms db.length) cap

theorem pyStrLe_trans : ∀ a b c : String,
    pyStrLe a b = true → pyStrLe b c = true → pyStrLe a c = true := by
  intro a b c hab hbc
  simp only [pyStrLe, decide_eq_true_eq] at *
  exact le_trans hab hbc

theorem pyStrLe_total : ∀ a b : String, (pyStrLe a b || pyStrLe b a) = true := by
  intro a b
  simp only [pyStrLe, Bool.or_eq_true, decide_eq_true_eq]
  exact le_total a.data b.data


theorem perm_insertStable (le : α → α → Bool) (x : α) :
    ∀ l : List α, (insertStable le x l).Perm (x :: l) := by
  intro l
  induction l with
  | nil => simp [insertStable]
  | cons y ys ih =>
    by_cases h : le x y = true
    · simp [insertStable, h]
    · simp only [insertStable, h, if_false, Bool.false_eq_true]
      exact (ih.cons y).trans (List.Perm.swap x y ys)

theorem perm_stableSortBy (le : α → α → Bool) :
    ∀ l : List α, (stableSortBy le l).Perm l := by
  intro l
  induction l with
  | nil => simp [stableSortBy]
  | cons x xs ih =>
    exact (perm_insertStable le x (stableSortBy le xs)).trans (ih.cons x)

theorem mem_insertStable (le : α → α → Bool) (x : α) (l : List α) (z : α) :
    z ∈ insertStable le x l ↔ z = x ∨ z ∈ l :=
  ((perm_insertStable le x l).mem_iff).trans (by simp)

theorem pairwise_insertStable (le : α → α → Bool)
    (htrans : ∀ a b c, le a b = true → le b c = true → le a c = true)
    (htotal : ∀ a b, (le a b || le b a) = true)
    (x : α) : ∀ l : List α, List.Pairwise (fun a b => le a b = true) l →
      List.Pairwise (fun a b => le a b = true) (insertStable le x l) := by
  intro l
  induction l with
  | nil => intro _; simp [insertStable]
  | cons y ys ih =>
    intro hl
    rcases List.pairwise_cons.mp hl with ⟨hy, hys⟩
    by_cases h : le x y = true
    · simp only [insertStable, h, if_true]
      refine List.pairwise_cons.mpr ⟨?_, hl⟩
      intro b hb
      rcases List.mem_cons.mp hb with rfl | hb
      · exact h
      · exact htrans x y b h (hy b hb)
    · simp only [insertStable, h, if_false, Bool.false_eq_true]
      refine List.pairwise_cons.mpr ⟨?_, ih hys⟩
      intro b hb
      rcases (mem_insertStable le x ys b).mp hb with hb | hb
      · rw [hb]
        have h2 := htotal x y
        simp only [h, Bool.false_or] at h2
        exact h2
      · exact hy b hb

theorem sorted_stableSortBy (le : α → α → Bool)
    (htrans : ∀ a b c, le a b = true → le b c = true → le a c = true)
    (htotal : ∀ a b, (le a b || le b a) = true) :
    ∀ l : List α, List.Pairwise (fun a b => le a b = true) (stableSortBy le l) := by
  intro l
  induction l with
  | nil => simp [stableSortBy]
  | cons x xs ih => exact pairwise_insertStable le htrans htotal x _ ih

theorem filter_insertStable_pos (le : α → α → Bool) (p : α → Bool) (x : α)
    (hx : p x = true) (hcls : ∀ b, p b = true → le x b = true) :
    ∀ l : List α, List.filter p (insertStable le x l) = x :: List.filter p l := by
  intro l
  induction l with
  | nil => simp [insertStable, hx]
  | cons y ys ih =>
    by_cases h : le x y = true
    · simp [insertStable, h, hx]
    · have hpy : p y = false := by
        cases hpy : p y with
        | false => rfl
        | true => exact absurd (hcls y hpy) (by simp [h])
      simp [insertStable, h, List.filter_cons, hpy, ih]

theorem filter_insertStable_neg (le : α → α → Bool) (p : α → Bool) (x : α)
    (hx : p x = false) :
    ∀ l : List α, List.filter p (insertStable le x l) = List.filter p l := by
  intro l
  induction l with
  | nil => simp [insertStable, hx]
  | cons y ys ih =>
    by_cases h : le x y = true
    · simp [insertStable, h, List.filter_cons, hx]
    · simp [insertStable, h, List.filter_cons, ih]

/-- Stability of `stableSortBy`: the elements of any `le`-equivalence class
(a set on which `le` holds both ways, e.g. the records tied on the whole
sort key) appear in the sorted output exactly in their original order. -/
theorem filter_stableSortBy (le : α → α → Bool) (p : α → Bool)
    (hcls : ∀ a b, p a = true → p b = true → le a b = true) :
    ∀ l : List α, List.filter p (stableSortBy le l) = List.filter p l := by
  intro l
  induction l with
  | nil => simp [stableSortBy]
  | cons x xs ih =>
    cases hx : p x with
    | true =>
      rw [stableSortBy, filter_insertStable_pos le p x hx (fun b hb => hcls x b hx hb), ih,
        List.filter_cons_of_pos hx]
    | false =>
      rw [stableSortBy, filter_insertStable_neg le p x hx, ih,
        List.filter_cons_of_neg (by simp [hx])]

theorem nodup_stableSortBy_map (le : α → α → Bool) (f : α → β) (l : List α)
    (h : (l.map f).Nodup) : ((stableSortBy le l).map f).Nodup :=
  (((perm_stableSortBy le l).map f).nodup_iff).mpr h


/-! ### Correctness of the greedy containment test -/

/-- The greedy loop agrees with the library subsequence test, whose
defining equations are the same case split. -/
theorem matchGreedy_eq_isSublist : ∀ s p : List String,
    matchGreedy s p = p.isSublist s := by
  intro s
  induction s with
  | nil => intro p; cases p <;> rfl
  | cons a t ih =>
    intro p
    cases p with
    | nil => rfl
    | cons q qs =>
      show (if a = q then matchGreedy t qs else matchGreedy t (q :: qs)) = _
      rw [List.isSublist]
      by_cases h : a = q
      · simp [h, ih]
      · have hbeq : (q == a) = false := by simp [Ne.symm h]
        simp [h, hbeq, ih]

/-- For a non-empty pattern, `_pattern_in_sequence` decides subsequence
containment. -/
theorem patternInSequence_iff (pat s : List String) (hp : pat ≠ []) :
    patternInSequence pat s = true ↔ pat.Sublist s := by
  have hiff := @List.isSublist_iff_sublist String _ _ pat s
  rw [patternInSequence, matchGreedy_eq_isSublist]
  simp [List.isEmpty_iff, hp, hiff]

/-- Successful `isPrefixOf` decomposes the list. -/
theorem isPrefixOf_append : ∀ (p s : List String),
    p.isPrefixOf s = true → s = p ++ s.drop p.length := by
  intro p
  induction p with
  | nil => intro s _; simp
  | cons a ps ih =>
    intro s h
    cases s with
    | nil => simp [List.isPrefixOf] at h
    | cons b t =>
      rw [List.isPrefixOf, Bool.and_eq_true, beq_iff_eq] at h
      obtain ⟨rfl, h2⟩ := h
      have := ih t h2
      simpa using this

/-- A successful `_find_suffix` call splits the sequence around a
contiguous occurrence of the pattern. -/
theorem findSuffix_decomp : ∀ (s pat t : List String),
    findSuffix s pat = some t → ∃ u, s = u ++ (pat ++ t) := by
  intro s
  induction s with
  | nil =>
    intro pat t h
    rw [findSuffix] at h
    by_cases hp : pat.isEmpty = true
    · rw [if_pos hp, Option.some.injEq] at h
      rw [List.isEmpty_iff] at hp
      exact ⟨[], by simp [hp, ← h]⟩
    · rw [if_neg hp] at h
      exact absurd h (by simp)
  | cons a r ih =>
    intro pat t h
    rw [findSuffix] at h
    by_cases hp : pat.isPrefixOf (a :: r) = true
    · rw [if_pos hp, Option.some.injEq] at h
      refine ⟨[], ?_⟩
      have := isPrefixOf_append pat (a :: r) hp
      rw [h] at this
      simpa using this
    · rw [if_neg hp] at h
      obtain ⟨u, hu⟩ := ih pat t h
      exact ⟨a :: u, by simp [hu]⟩

/-- Counting over a `filterMap` image is bounded by counting over the
source, given a pointwise transfer of the predicates. -/
theorem countP_filterMap_le (f : α → Option β) (p : β → Bool) (q : α → Bool)
    (h : ∀ a b, f a = some b → p b = true → q a = true) :
    ∀ l : List α, (l.filterMap f).countP p ≤ l.countP q := by
  intro l
  induction l with
  | nil => simp
  | cons a l ih =>
    rw [List.filterMap_cons, List.countP_cons]
    cases hfa : f a with
    | none =>
      exact le_trans ih (by omega)
    | some b =>
      rw [List.countP_cons]
      by_cases hpb : p b = true
      · rw [h a b hfa hpb, if_pos hpb]
        simp only [if_true]
        omega
      · rw [if_neg hpb]
        omega

/-- A row kept by the projection of `pat` and containing `x` witnesses
`pat ++ [x]` as a subsequence of the original sequence. -/
theorem patternInSequence_of_suffix_mem (s pat t : List String) (x : String)
    (hfs : findSuffix s pat = some t) (hx : x ∈ t) :
    patternInSequence (pat ++ [x]) s = true := by
  obtain ⟨u, hu⟩ := findSuffix_decomp s pat t hfs
  rw [patternInSequence_iff _ s (by simp)]
  have h1 : (pat ++ [x]).Sublist (pat ++ t) :=
    List.Sublist.append_left (List.singleton_sublist.mpr hx) pat
  have h2 : (pat ++ t).Sublist (u ++ (pat ++ t)) :=
    List.sublist_append_right u (pat ++ t)
  rw [hu]
  exact h1.trans h2

/-- The projected count of an item is a lower bound for the true support
of the extended pattern: each projected row containing `x` stems from a
distinct original sequence that contains `pat ++ [x]`. -/
theorem itemCount_buildProjected_le (db : List (List String))
    (pat : List String) (x : String) :
    itemCount (buildProjected db pat) x ≤ calcSupport db (pat ++ [x]) := by
  apply countP_filterMap_le
  intro s t hst hx
  have hfst : findSuffix s pat = some t := by
    cases hfs : findSuffix s pat with
    | none => simp [hfs] at hst
    | some t0 =>
      simp only [hfs] at hst
      by_cases he : t0.isEmpty = true
      · simp [he] at hst
      · simp only [if_neg he, Option.some.injEq] at hst
        rw [← hst]
  rw [decide_eq_true_eq] at hx
  exact patternInSequence_of_suffix_mem s pat t x hfst hx

/-- Membership in the filtered candidate list certifies the count. -/
theorem mem_frequentItemsInRows (rows : List (List String)) (msc : Nat)
    (x : String) (h : x ∈ frequentItemsInRows rows msc) :
    msc ≤ itemCount rows x := by
  have := (List.mem_filter.mp h).2
  rwa [decide_eq_true_eq] at this

/-- Membership in the sorted root candidate list certifies the count. -/
theorem mem_findFrequentItems (db : List (List String)) (msc : Nat)
    (x : String) (h : x ∈ findFrequentItems db msc) :
    msc ≤ itemCount db x :=
  mem_frequentItemsInRows db msc x
    (((perm_stableSortBy pyStrLe (frequentItemsInRows db msc)).mem_iff).mp h)

/-- Every record appended inside `_mine_recursive` has
`_calculate_support`-value at least `msc`, provided the frame's rows are
the projection of its pattern over the original database — which is how
every frame is entered. -/
theorem mineRec_support_ge (db : List (List String)) (msc : Nat)
    (cap : Option Nat) :
    ∀ (fuel : Nat) (pfx : List String) (curLen : Nat) (p : PatternRec),
      p ∈ mineRec db msc cap fuel pfx (buildProjected db pfx) curLen →
        msc ≤ p.support := by
  intro fuel
  induction fuel with
  | zero => intro pfx curLen p hp; exact absurd hp (by simp [mineRec])
  | succ fuel ih =>
    intro pfx curLen p hp
    rw [mineRec] at hp
    by_cases hstop : stopGuard cap curLen = true
    · rw [if_pos hstop] at hp
      exact absurd hp (by simp)
    · rw [if_neg hstop] at hp
      obtain ⟨item, hitem, hp⟩ := List.mem_flatMap.mp hp
      rcases List.mem_cons.mp hp with rfl | hp
      · show msc ≤ calcSupport db (pfx ++ [item])
        exact le_trans (mem_frequentItemsInRows _ msc item hitem)
          (itemCount_buildProjected_le db pfx item)
      · by_cases hgo : goDeeper cap curLen = true
        · rw [if_pos hgo] at hp
          exact ih (pfx ++ [item]) (curLen + 1) p hp
        · rw [if_neg hgo] at hp
          exact absurd hp (by simp)

/-- A single-item pattern is contained in a row exactly when the item
occurs in the row. -/
theorem patternInSequence_single (x : String) (s : List String) :
    patternInSequence [x] s = decide (x ∈ s) := by
  rw [patternInSequence, matchGreedy_eq_isSublist]
  simp only [List.isEmpty_cons, Bool.not_false, Bool.true_and]
  rcases h : [x].isSublist s with _ | _
  · have := (not_iff_not.mpr (@List.isSublist_iff_sublist String _ _ [x] s)).mp
      (by simp [h])
    rw [List.singleton_sublist] at this
    simp [this]
  · have := List.isSublist_iff_sublist.mp h
    rw [List.singleton_sublist] at this
    simp [this]

/-- For a single item the recorded support equals the dict count. -/
theorem calcSupport_single (db : List (List String)) (x : String) :
    calcSupport db [x] = itemCount db x :=
  List.countP_congr (fun s _ => by rw [patternInSequence_single x s])

/-- Every record of the discovery list meets the threshold. -/
theorem discovered_support_ge (db : List (List String)) (msc : Nat)
    (cap : Option Nat) (p : PatternRec)
    (hp : p ∈ discoveredPatterns db msc cap) : msc ≤ p.support := by
  rw [discoveredPatterns] at hp
  obtain ⟨item, hitem, hp⟩ := List.mem_flatMap.mp hp
  rcases List.mem_cons.mp hp with rfl | hp
  · show msc ≤ calcSupport db [item]
    rw [calcSupport_single]
    exact mem_findFrequentItems db msc item hitem
  · by_cases hgo : goDeeper cap 1 = true
    · rw [if_pos hgo] at hp
      exact mineRec_support_ge db msc cap (dbFuel db) [item] 2 p hp
    · rw [if_neg hgo] at hp
      exact absurd hp (by simp)

/-- Every record of the final sorted output meets the threshold. -/
theorem minePatterns_support_ge (db : List (List String)) (msc : Nat)
    (cap : Option Nat) (p : PatternRec)
    (hp : p ∈ minePatterns db msc cap) : msc ≤ p.support :=
  discovered_support_ge db msc cap p
    (((perm_stableSortBy lePat (discoveredPatterns db msc cap)).mem_iff).mp hp)

/-- Unfolding of the sort-key comparison. -/
theorem lePat_iff (a b : PatternRec) :
    lePat a b = true ↔
      b.support < a.support ∨ (a.support = b.support ∧ b.length ≤ a.length) := by
  simp [lePat]

theorem lePat_trans : ∀ a b c : PatternRec,
    lePat a b = true → lePat b c = true → lePat a c = true := by
  intro a b c hab hbc
  rw [lePat_iff] at *
  omega

theorem lePat_total : ∀ a b : PatternRec, (lePat a b || lePat b a) = true := by
  intro a b
  rw [Bool.or_eq_true, lePat_iff, lePat_iff]
  omega

/-- `firstDedupAux` yields pairwise-distinct items avoiding `seen`. -/
theorem nodup_firstDedupAux : ∀ (l seen : List String),
    (firstDedupAux seen l).Nodup ∧ ∀ x ∈ firstDedupAux seen l, x ∉ seen := by
  intro l
  induction l with
  | nil => intro seen; simp [firstDedupAux]
  | cons a t ih =>
    intro seen
    by_cases h : a ∈ seen
    · rw [firstDedupAux, if_pos h]
      exact ih seen
    · rw [firstDedupAux, if_neg h]
      obtain ⟨hnd, hav⟩ := ih (a :: seen)
      refine ⟨List.nodup_cons.mpr ⟨?_, hnd⟩, ?_⟩
      · intro hmem
        exact (hav a hmem) (List.mem_cons_self a seen)
      · intro x hx
        rcases List.mem_cons.mp hx with rfl | hx
        · exact h
        · intro hxs
          exact (hav x hx) (List.mem_cons_of_mem a hxs)

theorem nodup_frequentItemsInRows (rows : List (List String)) (msc : Nat) :
    (frequentItemsInRows rows msc).Nodup :=
  ((nodup_firstDedupAux _ []).1).filter _

theorem nodup_findFrequentItems (db : List (List String)) (msc : Nat) :
    (findFrequentItems db msc).Nodup :=
  ((perm_stableSortBy pyStrLe (frequentItemsInRows db msc)).nodup_iff).mpr
    (nodup_frequentItemsInRows db msc)

/-- Every record emitted below a frame strictly extends the frame's
pattern. -/
theorem mineRec_seq_shape (db : List (List String)) (msc : Nat)
    (cap : Option Nat) :
    ∀ (fuel : Nat) (pfx : List String) (projDb : List (List String))
      (curLen : Nat) (p : PatternRec),
      p ∈ mineRec db msc cap fuel pfx projDb curLen →
        ∃ r, r ≠ [] ∧ p.sequence = pfx ++ r := by
  intro fuel
  induction fuel with
  | zero => intro pfx projDb curLen p hp; exact absurd hp (by simp [mineRec])
  | succ fuel ih =>
    intro pfx projDb curLen p hp
    rw [mineRec] at hp
    by_cases hstop : stopGuard cap curLen = true
    · rw [if_pos hstop] at hp
      exact absurd hp (by simp)
    · rw [if_neg hstop] at hp
      obtain ⟨item, _, hp⟩ := List.mem_flatMap.mp hp
      rcases List.mem_cons.mp hp with rfl | hp
      · exact ⟨[item], by simp, rfl⟩
      · by_cases hgo : goDeeper cap curLen = true
        · rw [if_pos hgo] at hp
          obtain ⟨r, hr, hseq⟩ := ih (pfx ++ [item]) _ (curLen + 1) p hp
          exact ⟨item :: r, by simp, by simp [hseq]⟩
        · rw [if_neg hgo] at hp
          exact absurd hp (by simp)

/-- Shape of the sequences contributed by one candidate's block inside
`_mine_recursive`: the new 1-step extension followed by its subtree. -/
theorem mem_block_shape (db : List (List String)) (msc : Nat)
    (cap : Option Nat) (fuel : Nat) (pfx : List String) (curLen : Nat)
    (item : String) (a : List String)
    (ha : a ∈ (mkRec db (pfx ++ [item]) ::
        (if goDeeper cap curLen = true then
          mineRec db msc cap fuel (pfx ++ [item])
            (buildProjected db (pfx ++ [item])) (curLen + 1)
        else [])).map (fun p => p.sequence)) :
    ∃ r, a = pfx ++ (item :: r) := by
  rw [List.map_cons] at ha
  rcases List.mem_cons.mp ha with rfl | ha
  · exact ⟨[], by simp [mkRec]⟩
  · by_cases hgo : goDeeper cap curLen = true
    · rw [if_pos hgo] at ha
      obtain ⟨q, hq, hqs⟩ := List.mem_map.mp ha
      obtain ⟨r, _, hseq⟩ :=
        mineRec_seq_shape db msc cap fuel (pfx ++ [item]) _ (curLen + 1) q hq
      exact ⟨r, by rw [← hqs, hseq]; simp⟩
    · rw [if_neg hgo] at ha
      exact absurd ha (by simp)

/-- The sequences emitted below one frame are pairwise distinct. -/
theorem mineRec_nodup_seq (db : List (List String)) (msc : Nat)
    (cap : Option Nat) :
    ∀ (fuel : Nat) (pfx : List String) (projDb : List (List String))
      (curLen : Nat),
      ((mineRec db msc cap fuel pfx projDb curLen).map
        (fun p => p.sequence)).Nodup := by
  intro fuel
  induction fuel with
  | zero => intro pfx projDb curLen; simp [mineRec]
  | succ fuel ih =>
    intro pfx projDb curLen
    rw [mineRec]
    by_cases hstop : stopGuard cap curLen = true
    · simp [hstop]
    · rw [if_neg hstop, List.map_flatMap]
      apply List.nodup_flatMap.mpr
      refine ⟨?_, ?_⟩
      · intro item _
        rw [List.map_cons]
        refine List.nodup_cons.mpr ⟨?_, ?_⟩
        · intro hmem
          by_cases hgo : goDeeper cap curLen = true
          · rw [if_pos hgo] at hmem
            obtain ⟨q, hq, hqs⟩ := List.mem_map.mp hmem
            obtain ⟨r, hr, hseq⟩ :=
              mineRec_seq_shape db msc cap fuel (pfx ++ [item]) _ (curLen + 1) q hq
            rw [hseq] at hqs
            have hqs2 : (pfx ++ [item]) ++ r = pfx ++ [item] := hqs
            have h3 : (pfx ++ [item]) ++ r = (pfx ++ [item]) ++ [] := by
              rw [List.append_nil]; exact hqs2
            exact hr (List.append_cancel_left h3)
          · rw [if_neg hgo] at hmem
            exact absurd hmem (by simp)
        · by_cases hgo : goDeeper cap curLen = true
          · rw [if_pos hgo]
            exact ih (pfx ++ [item]) _ (curLen + 1)
          · rw [if_neg hgo]
            simp
      · apply List.Pairwise.imp ?_ (nodup_frequentItemsInRows projDb msc)
        intro x y hxy a hax hay
        obtain ⟨rx, hrx⟩ := mem_block_shape db msc cap fuel pfx curLen x a hax
        obtain ⟨ry, hry⟩ := mem_block_shape db msc cap fuel pfx curLen y a hay
        rw [hrx] at hry
        exact hxy (List.cons_eq_cons.mp (List.append_cancel_left hry)).1

/-- Shape of the sequences contributed by one root item's block. -/
theorem mem_root_block_shape (db : List (List String)) (msc : Nat)
    (cap : Option Nat) (item : String) (a : List String)
    (ha : a ∈ (mkRec db [item] ::
        (if goDeeper cap 1 = true then
          mineRec db msc cap (dbFuel db) [item] (buildProjected db [item]) 2
        else [])).map (fun p => p.sequence)) :
    ∃ r, a = item :: r := by
  rw [List.map_cons] at ha
  rcases List.mem_cons.mp ha with rfl | ha
  · exact ⟨[], by simp [mkRec]⟩
  · by_cases hgo : goDeeper cap 1 = true
    · rw [if_pos hgo] at ha
      obtain ⟨q, hq, hqs⟩ := List.mem_map.mp ha
      obtain ⟨r, _, hseq⟩ :=
        mineRec_seq_shape db msc cap (dbFuel db) [item] _ 2 q hq
      exact ⟨r, by rw [← hqs, hseq]; simp⟩
    · rw [if_neg hgo] at ha
      exact absurd ha (by simp)

/-- The discovery list never repeats an item-token list. -/
theorem discovered_nodup_seq (db : List (List String)) (msc : Nat)
    (cap : Option Nat) :
    ((discoveredPatterns db msc cap).map (fun p => p.sequence)).Nodup := by
  rw [discoveredPatterns, List.map_flatMap]
  apply List.nodup_flatMap.mpr
  refine ⟨?_, ?_⟩
  · intro item _
    rw [List.map_cons]
    refine List.nodup_cons.mpr ⟨?_, ?_⟩
    · intro hmem
      by_cases hgo : goDeeper cap 1 = true
      · rw [if_pos hgo] at hmem
        obtain ⟨q, hq, hqs⟩ := List.mem_map.mp hmem
        obtain ⟨r, hr, hseq⟩ :=
          mineRec_seq_shape db msc cap (dbFuel db) [item] _ 2 q hq
        rw [hseq] at hqs
        have hqs2 : [item] ++ r = [item] := hqs
        have h3 : [item] ++ r = [item] ++ ([] : List String) := by
          rw [List.append_nil]; exact hqs2
        exact hr (List.append_cancel_left h3)
      · rw [if_neg hgo] at hmem
        exact absurd hmem (by simp)
    · by_cases hgo : goDeeper cap 1 = true
      · rw [if_pos hgo]
        exact mineRec_nodup_seq db msc cap (dbFuel db) [item] _ 2
      · rw [if_neg hgo]
        simp
  · apply List.Pairwise.imp ?_ (nodup_findFrequentItems db msc)
    intro x y hxy a hax hay
    obtain ⟨rx, hrx⟩ := mem_root_block_shape db msc cap x a hax
    obtain ⟨ry, hry⟩ := mem_root_block_shape db msc cap y a hay
    rw [hrx] at hry
    exact hxy (List.cons_eq_cons.mp hry).1

/-! ### The claims -/

/-- C1: for every database and non-empty pattern, `_calculate_support`
returns the number of input sequences containing the pattern as a
not-necessarily-contiguous subsequence, and `_pattern_in_sequence`
decides exactly subsequence containment. -/
theorem support_is_subsequence_count (db : List (List String))
    (P S : List String) (hP : P ≠ []) :
    calcSupport db P = db.countP (fun s => P.isSublist s) ∧
      (patternInSequence P S = true ↔ P.Sublist S) := by
  constructor
  · apply List.countP_congr
    intro s _
    rw [patternInSequence_iff P s hP]
    exact (List.isSublist_iff_sublist).symm
  · exact patternInSequence_iff P S hP

/-- Witness for C1 at the database `[[b, a]]`, pattern `[a]`, sequence
`[b, a]`. -/
theorem support_is_subsequence_count_checked :
    (["a"] : List String) ≠ [] ∧
      (calcSupport [["b", "a"]] ["a"] =
          [["b", "a"]].countP (fun s => List.isSublist ["a"] s) ∧
        (patternInSequence ["a"] ["b", "a"] = true ↔
          List.Sublist ["a"] ["b", "a"])) :=
  ⟨by decide, support_is_subsequence_count [["b", "a"]] ["a"] ["b", "a"] (by decide)⟩

/-- C2 exhibit: the row `[a, x, b, c]` contains the pattern `[a, b]` by
the support oracle's own greedy containment test, yet `_find_suffix`
returns `None` (it only finds contiguous occurrences), so the projection
drops the row — against the claim that projection admits a row exactly
when the greedy subsequence match succeeds (which would keep the row with
suffix `[c]`). -/
theorem findSuffix_misses_noncontiguous_occurrence :
    patternInSequence ["a", "b"] ["a", "x", "b", "c"] = true ∧
      findSuffix ["a", "x", "b", "c"] ["a", "b"] = none ∧
      buildProjected [["a", "x", "b", "c"]] ["a", "b"] = [] := by decide

/-- C3 exhibit: for the row `[b, a]` and pattern `[a]`, `_find_suffix`
returns the empty suffix `[]` (distinct from `None`), but the guard
`if suffix:` of `_build_projected_database` is falsy on the empty list,
so the projected database omits the contribution — against the claim
that an empty suffix is an included contribution. -/
theorem empty_suffix_dropped_from_projection :
    findSuffix ["b", "a"] ["a"] = some [] ∧
      buildProjected [["b", "a"]] ["a"] = [] := by decide

/-- C4 counterexample: with the database `[[a, b, c]]` and new pattern
`[a, b]`, projecting off the original database (what the code does)
yields `[[c]]`, while projecting the new pattern off the parent frame's
frontier rows (what the claim asserts) yields `[]`; the two recursions
are not equivalent. -/
theorem projection_off_original_not_frontier_cex :
    buildProjected [["a", "b", "c"]] ["a", "b"] = [["c"]] ∧
      buildProjected (buildProjected [["a", "b", "c"]] ["a"]) ["a", "b"] = [] := by
  decide

/-- C4 amended: at every recursion step the next projected database is
`_build_projected_database(new_pattern)`, which scans the original
sequence database `db` — not the current frontier `projDb`. -/
theorem mineRec_builds_projection_from_original (db : List (List String))
    (msc : Nat) (cap : Option Nat) (fuel : Nat) (pfx : List String)
    (projDb : List (List String)) (curLen : Nat) :
    mineRec db msc cap (fuel + 1) pfx projDb curLen =
      if stopGuard cap curLen then []
      else
        (frequentItemsInRows projDb msc).flatMap (fun item =>
          mkRec db (pfx ++ [item]) ::
            (if goDeeper cap curLen then
              mineRec db msc cap fuel (pfx ++ [item])
                (buildProjected db (pfx ++ [item])) (curLen + 1)
            else [])) := rfl

/-- C5: every record in the output of `mine_patterns` has support at
least `max(1, floor(min_support * total_count))`: the projected count
that admits a candidate is a lower bound of the recomputed support. -/
theorem emitted_support_meets_threshold (db : List (List String)) (ms : ℚ)
    (cap : Option Nat) (p : PatternRec) (_hms0 : 0 < ms) (_hms1 : ms ≤ 1)
    (hp : p ∈ minePatternsQ db ms cap) :
    minSupportCount ms db.length ≤ p.support :=
  minePatterns_support_ge db (minSupportCount ms db.length) cap p hp

/-- Witness for C5 at the database `[[a]]`, `min_support = 1`, no cap,
and the emitted record for the pattern `[a]`. -/
theorem emitted_support_meets_threshold_checked :
    0 < (1 : ℚ) ∧ (1 : ℚ) ≤ 1 ∧
      minSupportCount 1 ([["a"]] : List (List String)).length ≤
        ({ sequence := ["a"], support := 1, length := 1 } : PatternRec).support :=
  ⟨by decide, by decide,
    emitted_support_meets_threshold [["a"]] 1 none
      { sequence := ["a"], support := 1, length := 1 } (by decide) (by decide)
      (by
        show _ ∈ minePatterns [["a"]] (minSupportCount 1 1) none
        have h : minSupportCount 1 1 = 1 := by simp [minSupportCount]
        rw [h]
        decide)⟩

/-- C6: extending a (non-empty) pattern by one item can only shrink the
support computed by `_calculate_support` over a fixed database. -/
theorem support_antitone_under_extension (db : List (List String))
    (P : List String) (x : String) (hP : P ≠ []) :
    calcSupport db (P ++ [x]) ≤ calcSupport db P := by
  apply List.countP_mono_left
  intro s _ hs
  rw [patternInSequence_iff _ s (by simp)] at hs
  rw [patternInSequence_iff _ s hP]
  exact List.Sublist.trans (List.sublist_append_left P [x]) hs

/-- Witness for C6 at the database `[[a, b], [a]]`, pattern `[a]`,
extension item `b`. -/
theorem support_antitone_under_extension_checked :
    (["a"] : List String) ≠ [] ∧
      calcSupport [["a", "b"], ["a"]] (["a"] ++ ["b"]) ≤
        calcSupport [["a", "b"], ["a"]] ["a"] :=
  ⟨by decide, support_antitone_under_extension [["a", "b"], ["a"]] ["a"] "b" (by decide)⟩

/-- C7 counterexample: in the recursive frame for the pattern `[b]` of
the database `[[b, c], [b, a]]` (threshold 1), the candidate items are
visited in dict insertion order `[c, a]` — the loop of `_mine_recursive`
applies no sort — which is not ascending; consequently the tied records
for `[b, c]` and `[b, a]` surface in that non-lexicographic order. -/
theorem recursive_candidates_not_sorted_cex :
    frequentItemsInRows (buildProjected [["b", "c"], ["b", "a"]] ["b"]) 1 =
        ["c", "a"] ∧
      pyStrLe "c" "a" = false ∧
      (minePatterns [["b", "c"], ["b", "a"]] 1 none).map (fun p => p.sequence) =
        [["b"], ["b", "c"], ["b", "a"], ["a"], ["c"]] := by decide

/-- C7 amended: only the root level sorts its candidates —
`_find_frequent_items` returns the frequent single items in ascending
Python string order; recursive levels visit candidates in dict insertion
order. -/
theorem root_candidates_sorted (db : List (List String)) (msc : Nat) :
    List.Pairwise (fun a b : String => pyStrLe a b = true)
      (findFrequentItems db msc) :=
  sorted_stableSortBy pyStrLe pyStrLe_trans pyStrLe_total _

/-- C8: the output of `mine_patterns` is non-increasing in support, and
non-increasing in length among equal supports; it arises from the
discovery list by the single stable sort with key
`(-support, -length)`, so records tied on both components keep their
discovery order (the filter on any fixed key value is unchanged). -/
theorem output_sorted_by_support_then_length (db : List (List String))
    (ms : ℚ) (cap : Option Nat) :
    (minePatternsQ db ms cap).Pairwise
        (fun a b => b.support ≤ a.support ∧
          (a.support = b.support → b.length ≤ a.length)) ∧
      minePatternsQ db ms cap =
        stableSortBy lePat
          (discoveredPatterns db (minSupportCount ms db.length) cap) ∧
      ∀ sup len : Nat,
        (minePatternsQ db ms cap).filter
            (fun p => decide (p.support = sup) && decide (p.length = len)) =
          (discoveredPatterns db (minSupportCount ms db.length) cap).filter
            (fun p => decide (p.support = sup) && decide (p.length = len)) := by
  refine ⟨?_, rfl, ?_⟩
  · refine List.Pairwise.imp ?_
      (sorted_stableSortBy lePat lePat_trans lePat_total
        (discoveredPatterns db (minSupportCount ms db.length) cap))
    intro a b hab
    rw [lePat_iff] at hab
    omega
  · intro sup len
    apply filter_stableSortBy
    intro a b ha hb
    rw [Bool.and_eq_true, decide_eq_true_eq, decide_eq_true_eq] at ha hb
    rw [lePat_iff]
    omega

/-- C9: an empty sequence list yields an empty pattern list without any
error: there are no frequent items, so nothing is ever appended. -/
theorem empty_database_yields_empty_output (ms : ℚ) (cap : Option Nat)
    (_hms0 : 0 < ms) (_hms1 : ms ≤ 1) :
    minePatternsQ [] ms cap = [] := rfl

/-- Witness for C9 at `min_support = 1`, no cap. -/
theorem empty_database_yields_empty_output_checked :
    0 < (1 : ℚ) ∧ (1 : ℚ) ≤ 1 ∧ minePatternsQ [] 1 none = [] :=
  ⟨by decide, by decide,
    empty_database_yields_empty_output 1 none (by decide) (by decide)⟩

/-- C10: no two records of the output of `mine_patterns` carry the same
item-token list: sibling candidates are distinct and every emitted record
extends its frame's pattern, so the discovery list has pairwise distinct
sequences, and the final sort only permutes it. -/
theorem no_duplicate_pattern_sequences (db : List (List String)) (ms : ℚ)
    (cap : Option Nat) :
    ((minePatternsQ db ms cap).map (fun p => p.sequence)).Nodup :=
  nodup_stableSortBy_map lePat (fun p => p.sequence) _
    (discovered_nodup_seq db (minSupportCount ms db.length) cap)

end PrefixSpanVerif
